import Mathlib

/-!
# Verification of `therapy_aid_tool.video_parser`

Shallow embedding of `VideoParser` (src/therapy_aid_tool/video_parser.py) and
proofs about it.  Time quantities are rationals (`ℚ`); Python lists become
`List`; Python dicts become insertion-ordered association lists; operations
that can raise become `Except`/`Option` values.
-/

namespace VideoParser

/-! ## Interaction statistics reducer (`interactions_statistics`)

The source groups a boolean series with `itertools.groupby`, keeps the groups
of `True` values, and derives five metrics per relation key. -/

/-- Embedding of `itertools.groupby` on a boolean series: maximal runs of
equal consecutive values, each tagged with its value. -/
def groupby : List Bool → List (Bool × List Bool)
  | [] => []
  | x :: xs =>
    (x, x :: xs.takeWhile (· == x)) :: groupby (xs.dropWhile (· == x))
termination_by l => l.length
decreasing_by
  simp only [List.length_cons]
  exact Nat.lt_succ_of_le (List.dropWhile_suffix _).length_le

/-- Python's `<` on lists of booleans: lexicographic with `False < True`.
`max`/`min` over `groups_of_interaction` in the source compare the group
lists themselves with this order, not their lengths. -/
def pyListLt : List Bool → List Bool → Bool
  | [], [] => false
  | [], _ :: _ => true
  | _ :: _, [] => false
  | a :: as, b :: bs => if a = b then pyListLt as bs else (!a && b)

/-- Python's `max` over a list of boolean lists (first maximum wins).
Returns `[]` on the empty list, where CPython would raise; the source only
calls it under the non-emptiness guard. -/
def pyMax : List (List Bool) → List Bool
  | [] => []
  | x :: xs => xs.foldl (fun acc y => if pyListLt acc y then y else acc) x

/-- Python's `min` over a list of boolean lists (first minimum wins). -/
def pyMin : List (List Bool) → List Bool
  | [] => []
  | x :: xs => xs.foldl (fun acc y => if pyListLt y acc then y else acc) x

/-- One statistics slot of the per-key dictionary in the source.
`typeDefault` is the initial placeholder (the Python class object `int` or
`float` that the source stores before the loop runs), `pyNone` is the `None`
sentinel assigned when a series has no interaction runs, and `val` is a
computed number. -/
inductive Slot (α : Type) where
  | typeDefault
  | pyNone
  | val (a : α)
deriving DecidableEq, Repr

/-- The five per-key statistics fields of `interactions_statistics`. -/
structure SeriesStats where
  n_interactions : Slot ℕ
  total_time : Slot ℚ
  min_time : Slot ℚ
  max_time : Slot ℚ
  mean_time : Slot ℚ
deriving DecidableEq, Repr

/-- The `groups_of_interaction` list of the source: the `groupby` groups whose
key equals `True` (`if k == 1`). -/
def groupsOfInteraction (interaction : List Bool) : List (List Bool) :=
  ((groupby interaction).filter (fun p => p.1 = true)).map Prod.snd

/-- The loop body of `interactions_statistics` for one key: compute the five
metrics of one boolean series at frame duration `frame_time`.
`interaction.count(1)` counts `True` entries since `True == 1` in Python. -/
def seriesStats (frame_time : ℚ) (interaction : List Bool) : SeriesStats :=
  let groups_of_interaction := groupsOfInteraction interaction
  if groups_of_interaction.isEmpty then
    ⟨.pyNone, .pyNone, .pyNone, .pyNone, .pyNone⟩
  else
    let n_interactions := groups_of_interaction.length
    let total_time := (interaction.count true : ℚ) * frame_time
    let mean_time := total_time / (groups_of_interaction.length : ℚ)
    let max_time := ((pyMax groups_of_interaction).length : ℚ) * frame_time
    let min_time := ((pyMin groups_of_interaction).length : ℚ) * frame_time
    ⟨.val n_interactions, .val total_time, .val min_time, .val max_time,
      .val mean_time⟩

/-- The `statistics` dictionary as initialized by the source: the three fixed
relation keys, each mapped to the placeholder record. -/
def initStatistics : List (String × SeriesStats) :=
  [("td_ct", ⟨.typeDefault, .typeDefault, .typeDefault, .typeDefault, .typeDefault⟩),
   ("td_pm", ⟨.typeDefault, .typeDefault, .typeDefault, .typeDefault, .typeDefault⟩),
   ("ct_pm", ⟨.typeDefault, .typeDefault, .typeDefault, .typeDefault, .typeDefault⟩)]

/-- Update the record stored under `key`; `none` models the `KeyError` raised
by `statistics[key][...] = ...` when `key` is not a key of `statistics`. -/
def setStats : List (String × SeriesStats) → String → SeriesStats →
    Option (List (String × SeriesStats))
  | [], _, _ => none
  | (k, v) :: rest, key, s =>
    if k = key then some ((k, s) :: rest)
    else (setStats rest key s).map (fun r => (k, v) :: r)

/-- The `for key, interaction in interactions.items()` loop of the source:
process the input keys in order, storing each key's statistics; a key outside
the fixed `statistics` dictionary raises `KeyError` (here `.error key`). -/
def statsLoop (frame_time : ℚ) :
    List (String × List Bool) → List (String × SeriesStats) →
    Except String (List (String × SeriesStats))
  | [], statistics => .ok statistics
  | (key, interaction) :: rest, statistics =>
    match setStats statistics key (seriesStats frame_time interaction) with
    | some statistics' => statsLoop frame_time rest statistics'
    | none => .error key

/-- Embedding of `VideoParser.interactions_statistics`: frame duration is
`1 / fps`, and the input dictionary is an insertion-ordered association list. -/
def interactions_statistics (fps : ℚ) (interactions : List (String × List Bool)) :
    Except String (List (String × SeriesStats)) :=
  statsLoop (1 / fps) interactions initStatistics

/-! ## Specification-side run decomposition

Independent definition of the lengths of the maximal runs of `true` values of
a boolean series, used to state what the reducer should compute. -/

/-- Lengths of the maximal contiguous runs of `true` in a boolean series, in
order: a leading `true` opens a run made of it and the following block of
`true` values, and the decomposition continues after that block. -/
def trueRunLengths : List Bool → List ℕ
  | [] => []
  | false :: xs => trueRunLengths xs
  | true :: xs =>
    ((xs.takeWhile (· == true)).length + 1) :: trueRunLengths (xs.dropWhile (· == true))
termination_by l => l.length
decreasing_by
  all_goals simp only [List.length_cons]
  · exact Nat.lt_succ_of_le (Nat.le_refl _)
  · exact Nat.lt_succ_of_le (List.dropWhile_suffix _).length_le

/-! ## Bounding boxes and the detection collector (`bboxes`)

`BBox` itself lives in `therapy_aid_tool/model_inference.py`, which is not
part of the analysed sources; following the spec it is a tagged value: either
the "absent" sentinel or a present box with axis-aligned coordinates and a
confidence score.  The video source and the detection model are the external
collaborators of the spec, passed in as functions. -/

/-- Modelled from the spec: `BBox` (defined in the missing
`model_inference.py`) is either the "absent" sentinel (no detection of this
class in this frame) or a present box with min/max coordinates and a
confidence score in [0,1]. -/
inductive BBox where
  | absent
  | present (xmin ymin xmax ymax conf : ℚ)
deriving DecidableEq, Repr

/-- Raw pixel data of one frame; opaque to this layer. -/
abbrev Frame := ℕ

/-- The frame-indexed detection table: one bounding-box sequence per class. -/
structure DetTable where
  td : List BBox
  ct : List BBox
  pm : List BBox
  td_ct_interaction : List BBox
  td_pm_interaction : List BBox
  ct_pm_interaction : List BBox
deriving DecidableEq, Repr

/-- One iteration of the `bboxes` loop body: append this frame's six
per-class boxes to the six sequences. -/
def appendDetections (bbs : DetTable) (preds : Fin 6 → BBox) : DetTable :=
  { td := bbs.td ++ [preds 0]
    ct := bbs.ct ++ [preds 1]
    pm := bbs.pm ++ [preds 2]
    td_ct_interaction := bbs.td_ct_interaction ++ [preds 3]
    td_pm_interaction := bbs.td_pm_interaction ++ [preds 4]
    ct_pm_interaction := bbs.ct_pm_interaction ++ [preds 5] }

/-- A Python exception escaping the collector. -/
inductive PyError where
  | typeError (msg : String)
deriving DecidableEq, Repr

/-- The error raised by `frame[:, :, ::-1]` when `cap.read()` returned no
frame: the source discards the success flag, leaving `frame = None`. -/
def noneSubscriptError : PyError :=
  .typeError "NoneType object is not subscriptable"

/-- The `for i in range(self.total_frames)` loop of `bboxes`: read one frame,
run the model, and append the six per-class boxes.  `read i = none` models an
exhausted video source at the i-th read, on which the unchecked subscript of
`None` raises. -/
def bboxesLoop (read : ℕ → Option Frame) (model : Frame → Fin 6 → BBox) :
    List ℕ → DetTable → Except PyError DetTable
  | [], bbs => .ok bbs
  | i :: rest, bbs =>
    match read i with
    | none => .error noneSubscriptError
    | some frame => bboxesLoop read model rest (appendDetections bbs (model frame))

/-- Embedding of `VideoParser.bboxes`: collect the per-frame, per-class boxes
over the declared `total_frames`, starting from the empty table. -/
def bboxes (total_frames : ℕ) (read : ℕ → Option Frame)
    (model : Frame → Fin 6 → BBox) : Except PyError DetTable :=
  bboxesLoop read model (List.range total_frames) ⟨[], [], [], [], [], []⟩

/-! ## Interaction extractor (`interactions`) -/

/-- Modelled from the spec: Python truthiness of a `BBox` (its `__bool__`,
defined in the missing `model_inference.py`), i.e. `is_present`: true iff the
box is not the "absent" sentinel, regardless of the confidence value. -/
def pyTruthy : BBox → Bool
  | .absent => false
  | .present _ _ _ _ _ => true

/-- Embedding of `VideoParser.interactions`: for each frame index up to
`total_frames`, the truthiness of the three interaction-class boxes.
Indexing defaults to the absent sentinel out of range; in every actual run
the sequences have length `total_frames` (see the `bboxes` length theorem) so
the default is never consulted. -/
def interactions (total_frames : ℕ) (bbs : DetTable) : List (String × List Bool) :=
  [("td_ct", (List.range total_frames).map
      (fun idx => pyTruthy (bbs.td_ct_interaction.getD idx .absent))),
   ("td_pm", (List.range total_frames).map
      (fun idx => pyTruthy (bbs.td_pm_interaction.getD idx .absent))),
   ("ct_pm", (List.range total_frames).map
      (fun idx => pyTruthy (bbs.ct_pm_interaction.getD idx .absent)))]

/-! ## Closeness scorer (`closeness`) -/

/-- Modelled from the spec: area of a bounding box; the absent sentinel has
area 0. -/
def BBox.area : BBox → ℚ
  | .absent => 0
  | .present x y X Y _ => (X - x) * (Y - y)

/-- Modelled from the spec: intersection area of two axis-aligned boxes; 0 if
either is absent. -/
def intersectionArea : BBox → BBox → ℚ
  | .present x1 y1 X1 Y1 _, .present x2 y2 X2 Y2 _ =>
      max (min X1 X2 - max x1 x2) 0 * max (min Y1 Y2 - max y1 y2) 0
  | _, _ => 0

/-- Modelled from the spec: `BBox.niou` (defined in the missing
`model_inference.py`): `intersection_area(A, B) / min(area(A), area(B))`,
clamped to [0,1]; 0.0 if either box is the absent sentinel or either area is
zero. -/
def niou (a b : BBox) : ℚ :=
  if a = .absent ∨ b = .absent then 0
  else if a.area = 0 ∨ b.area = 0 then 0
  else min (max (intersectionArea a b / min a.area b.area) 0) 1

/-- Embedding of `VideoParser.closeness`: the per-frame NIoU of the three
actor pairs.  Indexing defaults to the absent sentinel out of range, as in
`interactions`. -/
def closeness (total_frames : ℕ) (bbs : DetTable) : List (String × List ℚ) :=
  [("td_ct", (List.range total_frames).map
      (fun idx => niou (bbs.td.getD idx .absent) (bbs.ct.getD idx .absent))),
   ("td_pm", (List.range total_frames).map
      (fun idx => niou (bbs.td.getD idx .absent) (bbs.pm.getD idx .absent))),
   ("ct_pm", (List.range total_frames).map
      (fun idx => niou (bbs.ct.getD idx .absent) (bbs.pm.getD idx .absent)))]

/-! ## Concrete inputs used by witnesses -/

/-- A video source with a frame for every index. -/
def read0 : ℕ → Option Frame := fun _ => some 0

/-- A detection model that never detects anything. -/
def model0 : Frame → Fin 6 → BBox := fun _ _ => .absent

/-- The detection table collected by `model0` over one frame. -/
def table0 : DetTable := ⟨[.absent], [.absent], [.absent], [.absent], [.absent], [.absent]⟩

/-- A video source that never yields a frame. -/
def readNone : ℕ → Option Frame := fun _ => none

/-- A video source with exactly one frame (index 0). -/
def readOneFrame : ℕ → Option Frame := fun i => if i = 0 then some 0 else none

/-- A one-frame table whose only present box is the toddler–caretaker
interaction class. -/
def tableC6 : DetTable :=
  ⟨[.absent], [.absent], [.absent], [.present 0 0 1 1 1], [.absent], [.absent]⟩

/-- The one-frame detection table of the spec's concrete closeness scenario:
`td = box(0,0,10,10)`, `ct = box(5,5,15,15)`, `pm` absent. -/
def tableC8 : DetTable :=
  ⟨[.present 0 0 10 10 1], [.present 5 5 15 15 1], [.absent], [.absent], [.absent], [.absent]⟩

/-! ## Sanity checks on small inputs -/

example : trueRunLengths [true, true, false, true, false, false, true, true, true] = [2, 1, 3] := by
  simp [trueRunLengths]

example : groupsOfInteraction [true, true, false, true] = [[true, true], [true]] := by
  simp [groupsOfInteraction, groupby]

example : seriesStats (1/2) [true, true, false, true, false, false, true, true, true] =
    ⟨.val 3, .val 3, .val (1/2), .val (3/2), .val 1⟩ := by
  simp [seriesStats, groupsOfInteraction, groupby, pyMax, pyMin, pyListLt,
    List.count, List.countP, List.countP.go]
  norm_num

/-! ## Lemmas about `groupby` and run lengths -/

/-- Every `groupby` group is non-empty and constant at its key. -/
theorem groupby_group_spec (l : List Bool) :
    ∀ p ∈ groupby l, p.2 ≠ [] ∧ ∀ b ∈ p.2, b = p.1 := by
  induction l using groupby.induct with
  | case1 => simp [groupby]
  | case2 x xs ih =>
    intro p hp
    rw [groupby] at hp
    rcases List.mem_cons.mp hp with hp | hp
    · subst hp
      refine ⟨by simp, ?_⟩
      intro b hb
      rcases List.mem_cons.mp hb with hb | hb
      · exact hb
      · simpa using List.mem_takeWhile_imp hb
    · exact ih p hp

/-- `trueRunLengths` ignores a leading block of `false` values. -/
theorem trueRunLengths_dropWhile_false (l : List Bool) :
    trueRunLengths (l.dropWhile (· == false)) = trueRunLengths l := by
  induction l with
  | nil => rfl
  | cons x xs ih =>
    cases x
    · simpa [List.dropWhile, trueRunLengths] using ih
    · simp [List.dropWhile]

/-- The lengths of the `True` groups kept by the reducer are exactly the
maximal true-run lengths of the series. -/
theorem groupsOfInteraction_lengths (l : List Bool) :
    (groupsOfInteraction l).map List.length = trueRunLengths l := by
  induction l using groupby.induct with
  | case1 => simp [groupsOfInteraction, groupby, trueRunLengths]
  | case2 x xs ih =>
    cases x
    · rw [show groupsOfInteraction (false :: xs) =
          groupsOfInteraction (xs.dropWhile (· == false)) by
        simp [groupsOfInteraction, groupby]]
      rw [ih, trueRunLengths_dropWhile_false, trueRunLengths]
    · rw [show groupsOfInteraction (true :: xs) =
          (true :: xs.takeWhile (· == true)) :: groupsOfInteraction (xs.dropWhile (· == true)) by
        simp [groupsOfInteraction, groupby]]
      rw [trueRunLengths]
      simp only [List.map_cons, List.length_cons, ih]

/-! ## Python list comparison on all-`true` runs

The source takes `len(max(...))` and `len(min(...))` of the groups of `True`
values: Python compares the group lists lexicographically, which on lists of
identical elements coincides with comparing lengths. -/

/-- On all-`true` lists, Python's lexicographic `<` is length comparison. -/
theorem pyListLt_replicate (m n : ℕ) :
    pyListLt (List.replicate m true) (List.replicate n true) = decide (m < n) := by
  induction m generalizing n with
  | zero =>
    cases n with
    | zero => rfl
    | succ n => simp [pyListLt, List.replicate]
  | succ m ih =>
    cases n with
    | zero => simp [pyListLt, List.replicate]
    | succ n => simp [pyListLt, List.replicate, ih, Nat.succ_lt_succ_iff]

/-- The fold inside `pyMax` on all-`true` lists produces an all-`true` list
whose length is attained in the input and bounds every input length. -/
theorem pyMax_foldl_spec (rest : List (List Bool)) (acc : List Bool)
    (hacc : acc = List.replicate acc.length true)
    (hrest : ∀ g ∈ rest, g = List.replicate g.length true) :
    ∃ R, rest.foldl (fun a y => if pyListLt a y then y else a) acc =
        List.replicate R true ∧
      (R = acc.length ∨ ∃ g ∈ rest, R = g.length) ∧
      acc.length ≤ R ∧ ∀ g ∈ rest, g.length ≤ R := by
  induction rest generalizing acc with
  | nil => exact ⟨acc.length, by simpa using hacc, Or.inl rfl, Nat.le_refl _, by simp⟩
  | cons y ys ih =>
    have hy : y = List.replicate y.length true := hrest y (by simp)
    have hcond : pyListLt acc y = decide (acc.length < y.length) := by
      conv_lhs => rw [hacc, hy]
      exact pyListLt_replicate _ _
    by_cases hlt : acc.length < y.length
    · have hif : (if pyListLt acc y then y else acc) = y := by
        rw [hcond]
        simp [hlt]
      obtain ⟨R, hrep, hmem, hge, hall⟩ :=
        ih y hy (fun g hg => hrest g (List.mem_cons_of_mem _ hg))
      refine ⟨R, ?_, ?_, ?_, ?_⟩
      · simpa [hif] using hrep
      · rcases hmem with hmem | ⟨g, hg, hmem⟩
        · exact Or.inr ⟨y, by simp, hmem⟩
        · exact Or.inr ⟨g, List.mem_cons_of_mem _ hg, hmem⟩
      · exact Nat.le_trans (Nat.le_of_lt hlt) hge
      · intro g hg
        rcases List.mem_cons.mp hg with hg | hg
        · subst hg; exact hge
        · exact hall g hg
    · have hif : (if pyListLt acc y then y else acc) = acc := by
        rw [hcond]
        simp [hlt]
      obtain ⟨R, hrep, hmem, hge, hall⟩ :=
        ih acc hacc (fun g hg => hrest g (List.mem_cons_of_mem _ hg))
      refine ⟨R, ?_, ?_, ?_, ?_⟩
      · simpa [hif] using hrep
      · rcases hmem with hmem | ⟨g, hg, hmem⟩
        · exact Or.inl hmem
        · exact Or.inr ⟨g, List.mem_cons_of_mem _ hg, hmem⟩
      · exact hge
      · intro g hg
        rcases List.mem_cons.mp hg with hg | hg
        · subst hg; exact Nat.le_trans (Nat.le_of_not_lt hlt) hge
        · exact hall g hg

/-- The fold inside `pyMin` on all-`true` lists produces an all-`true` list
whose length is attained in the input and is below every input length. -/
theorem pyMin_foldl_spec (rest : List (List Bool)) (acc : List Bool)
    (hacc : acc = List.replicate acc.length true)
    (hrest : ∀ g ∈ rest, g = List.replicate g.length true) :
    ∃ R, rest.foldl (fun a y => if pyListLt y a then y else a) acc =
        List.replicate R true ∧
      (R = acc.length ∨ ∃ g ∈ rest, R = g.length) ∧
      R ≤ acc.length ∧ ∀ g ∈ rest, R ≤ g.length := by
  induction rest generalizing acc with
  | nil => exact ⟨acc.length, by simpa using hacc, Or.inl rfl, Nat.le_refl _, by simp⟩
  | cons y ys ih =>
    have hy : y = List.replicate y.length true := hrest y (by simp)
    have hcond : pyListLt y acc = decide (y.length < acc.length) := by
      conv_lhs => rw [hacc, hy]
      exact pyListLt_replicate _ _
    by_cases hlt : y.length < acc.length
    · have hif : (if pyListLt y acc then y else acc) = y := by
        rw [hcond]
        simp [hlt]
      obtain ⟨R, hrep, hmem, hle, hall⟩ :=
        ih y hy (fun g hg => hrest g (List.mem_cons_of_mem _ hg))
      refine ⟨R, ?_, ?_, ?_, ?_⟩
      · simpa [hif] using hrep
      · rcases hmem with hmem | ⟨g, hg, hmem⟩
        · exact Or.inr ⟨y, by simp, hmem⟩
        · exact Or.inr ⟨g, List.mem_cons_of_mem _ hg, hmem⟩
      · exact Nat.le_trans hle (Nat.le_of_lt hlt)
      · intro g hg
        rcases List.mem_cons.mp hg with hg | hg
        · subst hg; exact hle
        · exact hall g hg
    · have hif : (if pyListLt y acc then y else acc) = acc := by
        rw [hcond]
        simp [hlt]
      obtain ⟨R, hrep, hmem, hle, hall⟩ :=
        ih acc hacc (fun g hg => hrest g (List.mem_cons_of_mem _ hg))
      refine ⟨R, ?_, ?_, ?_, ?_⟩
      · simpa [hif] using hrep
      · rcases hmem with hmem | ⟨g, hg, hmem⟩
        · exact Or.inl hmem
        · exact Or.inr ⟨g, List.mem_cons_of_mem _ hg, hmem⟩
      · exact hle
      · intro g hg
        rcases List.mem_cons.mp hg with hg | hg
        · subst hg; exact Nat.le_trans hle (Nat.le_of_not_lt hlt)
        · exact hall g hg

/-- Every group kept in `groups_of_interaction` is a non-empty all-`true`
list. -/
theorem groupsOfInteraction_replicate (l : List Bool) :
    ∀ g ∈ groupsOfInteraction l, g = List.replicate g.length true ∧ g ≠ [] := by
  intro g hg
  obtain ⟨p, hp, rfl⟩ := List.mem_map.mp hg
  have hpf := List.mem_filter.mp hp
  have hspec := groupby_group_spec l p hpf.1
  have hkey : p.1 = true := by simpa using hpf.2
  constructor
  · exact List.eq_replicate_of_mem (fun b hb => hkey ▸ hspec.2 b hb)
  · exact hspec.1

/-- `len(max(groups))`: on the groups of a series, the lexicographic maximum
has a length attained among the groups and bounding all group lengths. -/
theorem pyMax_length_spec (gs : List (List Bool)) (hne : gs ≠ [])
    (hrep : ∀ g ∈ gs, g = List.replicate g.length true) :
    ((pyMax gs).length ∈ gs.map List.length) ∧
      ∀ g ∈ gs, g.length ≤ (pyMax gs).length := by
  rcases gs with _ | ⟨x, xs⟩
  · exact absurd rfl hne
  · obtain ⟨R, hrep', hmem, hge, hall⟩ :=
      pyMax_foldl_spec xs x (hrep x (by simp)) (fun g hg => hrep g (List.mem_cons_of_mem _ hg))
    have hlen : (pyMax (x :: xs)).length = R := by
      rw [pyMax, hrep']
      simp
    constructor
    · rw [hlen]
      rcases hmem with hmem | ⟨g, hg, hmem⟩
      · exact List.mem_map.mpr ⟨x, by simp, hmem.symm⟩
      · exact List.mem_map.mpr ⟨g, List.mem_cons_of_mem _ hg, hmem.symm⟩
    · intro g hg
      rw [hlen]
      rcases List.mem_cons.mp hg with hg | hg
      · subst hg; exact hge
      · exact hall g hg

/-- `len(min(groups))`: on the groups of a series, the lexicographic minimum
has a length attained among the groups and below all group lengths. -/
theorem pyMin_length_spec (gs : List (List Bool)) (hne : gs ≠ [])
    (hrep : ∀ g ∈ gs, g = List.replicate g.length true) :
    ((pyMin gs).length ∈ gs.map List.length) ∧
      ∀ g ∈ gs, (pyMin gs).length ≤ g.length := by
  rcases gs with _ | ⟨x, xs⟩
  · exact absurd rfl hne
  · obtain ⟨R, hrep', hmem, hle, hall⟩ :=
      pyMin_foldl_spec xs x (hrep x (by simp)) (fun g hg => hrep g (List.mem_cons_of_mem _ hg))
    have hlen : (pyMin (x :: xs)).length = R := by
      rw [pyMin, hrep']
      simp
    constructor
    · rw [hlen]
      rcases hmem with hmem | ⟨g, hg, hmem⟩
      · exact List.mem_map.mpr ⟨x, by simp, hmem.symm⟩
      · exact List.mem_map.mpr ⟨g, List.mem_cons_of_mem _ hg, hmem.symm⟩
    · intro g hg
      rw [hlen]
      rcases List.mem_cons.mp hg with hg | hg
      · subst hg; exact hle
      · exact hall g hg

/-! ## Run-length arithmetic -/

/-- The run lengths of a series sum to its number of `true` entries. -/
theorem trueRunLengths_sum (l : List Bool) :
    (trueRunLengths l).sum = l.count true := by
  induction l using trueRunLengths.induct with
  | case1 => simp [trueRunLengths]
  | case2 xs ih =>
    rw [trueRunLengths]
    simpa using ih
  | case3 xs ih =>
    rw [trueRunLengths]
    have hsplit : xs.takeWhile (· == true) ++ xs.dropWhile (· == true) = xs :=
      List.takeWhile_append_dropWhile _ _
    have htake : (xs.takeWhile (· == true)).count true =
        (xs.takeWhile (· == true)).length := by
      rw [List.count_eq_length]
      intro b hb
      simpa [eq_comm] using List.mem_takeWhile_imp hb
    have hcount : xs.count true =
        (xs.takeWhile (· == true)).length + (xs.dropWhile (· == true)).count true := by
      conv_lhs => rw [← hsplit]
      rw [List.count_append, htake]
    simp only [List.sum_cons, List.count_cons, ih]
    simp [hcount]
    omega

/-- An all-`false` (or empty) series has no true-runs. -/
theorem trueRunLengths_eq_nil (l : List Bool) (h : ∀ x ∈ l, x = false) :
    trueRunLengths l = [] := by
  induction l with
  | nil => simp [trueRunLengths]
  | cons x xs ih =>
    have hx := h x (by simp)
    subst hx
    rw [trueRunLengths]
    exact ih (fun b hb => h b (by simp [hb]))

/-- A series with a true-run has a non-empty `groups_of_interaction`. -/
theorem groupsOfInteraction_ne_nil (l : List Bool) (h : trueRunLengths l ≠ []) :
    groupsOfInteraction l ≠ [] := by
  intro hnil
  apply h
  rw [← groupsOfInteraction_lengths, hnil]
  rfl

/-- Value of `seriesStats` on a series with at least one true-run: the
computed branch of the source. -/
theorem seriesStats_of_ne_nil (Δ : ℚ) (l : List Bool)
    (hne : groupsOfInteraction l ≠ []) :
    seriesStats Δ l =
      ⟨.val (groupsOfInteraction l).length,
       .val ((l.count true : ℚ) * Δ),
       .val (((pyMin (groupsOfInteraction l)).length : ℚ) * Δ),
       .val (((pyMax (groupsOfInteraction l)).length : ℚ) * Δ),
       .val (((l.count true : ℚ) * Δ) / ((groupsOfInteraction l).length : ℚ))⟩ := by
  have hemp : (groupsOfInteraction l).isEmpty = false := by
    simpa [List.isEmpty_iff] using hne
  simp [seriesStats, hemp]

/-- Value of `seriesStats` on a series with no true-run: the `None` branch of
the source. -/
theorem seriesStats_of_nil (Δ : ℚ) (l : List Bool)
    (hnil : groupsOfInteraction l = []) :
    seriesStats Δ l = ⟨.pyNone, .pyNone, .pyNone, .pyNone, .pyNone⟩ := by
  simp [seriesStats, hnil]

/-! ## Claims about the statistics reducer -/

/-- C1: for every boolean series with at least one maximal true-run, the
reducer sets `min_time` to the shortest true-run length times the frame
duration and `max_time` to the longest true-run length times the frame
duration (even though the source selects the runs by Python's lexicographic
list comparison). -/
theorem seriesStats_min_max (l : List Bool) (Δ : ℚ)
    (h : trueRunLengths l ≠ []) :
    ∃ a b, a ∈ trueRunLengths l ∧ b ∈ trueRunLengths l ∧
      (∀ x ∈ trueRunLengths l, a ≤ x ∧ x ≤ b) ∧
      (seriesStats Δ l).min_time = Slot.val ((a : ℚ) * Δ) ∧
      (seriesStats Δ l).max_time = Slot.val ((b : ℚ) * Δ) := by
  have hlen : (groupsOfInteraction l).map List.length = trueRunLengths l :=
    groupsOfInteraction_lengths l
  have hne : groupsOfInteraction l ≠ [] := groupsOfInteraction_ne_nil l h
  have hrep : ∀ g ∈ groupsOfInteraction l, g = List.replicate g.length true :=
    fun g hg => (groupsOfInteraction_replicate l g hg).1
  obtain ⟨hminmem, hminle⟩ := pyMin_length_spec (groupsOfInteraction l) hne hrep
  obtain ⟨hmaxmem, hmaxge⟩ := pyMax_length_spec (groupsOfInteraction l) hne hrep
  refine ⟨(pyMin (groupsOfInteraction l)).length,
    (pyMax (groupsOfInteraction l)).length, ?_, ?_, ?_, ?_, ?_⟩
  · rw [← hlen]; exact hminmem
  · rw [← hlen]; exact hmaxmem
  · intro x hx
    rw [← hlen] at hx
    obtain ⟨g, hg, rfl⟩ := List.mem_map.mp hx
    exact ⟨hminle g hg, hmaxge g hg⟩
  · rw [seriesStats_of_ne_nil Δ l hne]
  · rw [seriesStats_of_ne_nil Δ l hne]

/-- Witness for C1 on the series `[true, false, true, true]` at frame
duration 1: runs have lengths 1 and 2. -/
theorem seriesStats_min_max_witness :
    trueRunLengths [true, false, true, true] ≠ [] ∧
      (∃ a b, a ∈ trueRunLengths [true, false, true, true] ∧
        b ∈ trueRunLengths [true, false, true, true] ∧
        (∀ x ∈ trueRunLengths [true, false, true, true], a ≤ x ∧ x ≤ b) ∧
        (seriesStats 1 [true, false, true, true]).min_time = Slot.val ((a : ℚ) * 1) ∧
        (seriesStats 1 [true, false, true, true]).max_time = Slot.val ((b : ℚ) * 1)) :=
  ⟨by simp [trueRunLengths],
   seriesStats_min_max [true, false, true, true] 1 (by simp [trueRunLengths])⟩

/-- C3: for every all-`false` (or empty) series, all five statistics fields
are set to the `None` sentinel, which is distinct from the numeric zero. -/
theorem seriesStats_all_false (l : List Bool) (Δ : ℚ)
    (h : ∀ x ∈ l, x = false) :
    seriesStats Δ l = ⟨.pyNone, .pyNone, .pyNone, .pyNone, .pyNone⟩ ∧
      (Slot.pyNone : Slot ℚ) ≠ Slot.val 0 := by
  have hnil : groupsOfInteraction l = [] := by
    have hlen := groupsOfInteraction_lengths l
    rw [trueRunLengths_eq_nil l h] at hlen
    exact List.map_eq_nil_iff.mp hlen
  exact ⟨seriesStats_of_nil Δ l hnil, by simp⟩

/-- Witness for C3 on the all-`false` series `[false, false]` at frame
duration 1. -/
theorem seriesStats_all_false_witness :
    (∀ x ∈ [false, false], x = false) ∧
      (seriesStats 1 [false, false] = ⟨.pyNone, .pyNone, .pyNone, .pyNone, .pyNone⟩ ∧
        (Slot.pyNone : Slot ℚ) ≠ Slot.val 0) :=
  ⟨by simp, seriesStats_all_false [false, false] 1 (by simp)⟩

/-- C4: for every series with at least one true-run, `mean_time` equals
`total_time / n_interactions` with a non-zero divisor; the division only
occurs in the branch where the group list is non-empty. -/
theorem seriesStats_mean (l : List Bool) (Δ : ℚ)
    (h : trueRunLengths l ≠ []) :
    ∃ (n : ℕ) (t : ℚ), n ≠ 0 ∧
      (seriesStats Δ l).n_interactions = Slot.val n ∧
      (seriesStats Δ l).total_time = Slot.val t ∧
      (seriesStats Δ l).mean_time = Slot.val (t / (n : ℚ)) := by
  have hne : groupsOfInteraction l ≠ [] := groupsOfInteraction_ne_nil l h
  refine ⟨(groupsOfInteraction l).length, (l.count true : ℚ) * Δ, ?_, ?_, ?_, ?_⟩
  · simpa using hne
  · rw [seriesStats_of_ne_nil Δ l hne]
  · rw [seriesStats_of_ne_nil Δ l hne]
  · rw [seriesStats_of_ne_nil Δ l hne]

/-- Witness for C4 on the series `[true]` at frame duration 1. -/
theorem seriesStats_mean_witness :
    trueRunLengths [true] ≠ [] ∧
      (∃ (n : ℕ) (t : ℚ), n ≠ 0 ∧
        (seriesStats 1 [true]).n_interactions = Slot.val n ∧
        (seriesStats 1 [true]).total_time = Slot.val t ∧
        (seriesStats 1 [true]).mean_time = Slot.val (t / (n : ℚ))) :=
  ⟨by simp [trueRunLengths],
   seriesStats_mean [true] 1 (by simp [trueRunLengths])⟩

/-- C9: total active time computed as (number of `true` frames) × frame
duration agrees with the sum over the maximal true-runs of run length ×
frame duration, and is what the reducer stores whenever a run exists. -/
theorem seriesStats_total (l : List Bool) (Δ : ℚ) :
    ((trueRunLengths l).map (fun (n : ℕ) => (n : ℚ) * Δ)).sum = (l.count true : ℚ) * Δ ∧
      (trueRunLengths l ≠ [] →
        (seriesStats Δ l).total_time = Slot.val ((l.count true : ℚ) * Δ)) := by
  constructor
  · have h1 : ∀ L : List ℕ, (L.map (fun (n : ℕ) => (n : ℚ) * Δ)).sum = (L.sum : ℚ) * Δ := by
      intro L
      induction L with
      | nil => simp
      | cons n ns ih => simp [ih, add_mul]
    rw [h1, trueRunLengths_sum]
  · intro h
    rw [seriesStats_of_ne_nil Δ l (groupsOfInteraction_ne_nil l h)]

/-- Witness for C9 on the series `[true]` at frame duration 1. -/
theorem seriesStats_total_witness :
    ((trueRunLengths [true]).map (fun (n : ℕ) => (n : ℚ) * 1)).sum =
        (([true].count true : ℚ)) * 1 ∧
      (seriesStats 1 [true]).total_time = Slot.val (([true].count true : ℚ) * 1) :=
  ⟨(seriesStats_total [true] 1).1,
   (seriesStats_total [true] 1).2 (by simp [trueRunLengths])⟩

/-- The top-level `interactions_statistics` stores exactly the per-series
reduction `seriesStats` (at frame duration `1 / fps`) under each input key:
shown here for a singleton input under `td_ct`, the other keys keeping their
placeholder records. -/
theorem interactions_statistics_stores_seriesStats (fps : ℚ) (l : List Bool) :
    interactions_statistics fps [("td_ct", l)] =
      .ok [("td_ct", seriesStats (1 / fps) l),
           ("td_pm", ⟨.typeDefault, .typeDefault, .typeDefault, .typeDefault, .typeDefault⟩),
           ("ct_pm", ⟨.typeDefault, .typeDefault, .typeDefault, .typeDefault, .typeDefault⟩)] := by
  simp [interactions_statistics, statsLoop, setStats, initStatistics]

/-- C2: the concrete run-segmentation scenario of the spec: the series
`[T,T,F,T,F,F,T,T,T]` under key `td_ct` at fps 2 (frame duration 0.5 s)
yields 3 episodes, 3.0 s total, 0.5 s min, 1.5 s max, 1.0 s mean; keys not
present in the input keep their placeholder record. -/
theorem interactions_statistics_example :
    interactions_statistics 2
        [("td_ct", [true, true, false, true, false, false, true, true, true])] =
      .ok [("td_ct", ⟨.val 3, .val 3, .val (1/2), .val (3/2), .val 1⟩),
           ("td_pm", ⟨.typeDefault, .typeDefault, .typeDefault, .typeDefault, .typeDefault⟩),
           ("ct_pm", ⟨.typeDefault, .typeDefault, .typeDefault, .typeDefault, .typeDefault⟩)] := by
  have hs : seriesStats ((2 : ℚ)⁻¹) [true, true, false, true, false, false, true, true, true] =
      ⟨.val 3, .val 3, .val 2⁻¹, .val (3/2), .val 1⟩ := by
    simp [seriesStats, groupsOfInteraction, groupby, pyMax, pyMin, pyListLt,
      List.count, List.countP, List.countP.go]
    norm_num
  simp [interactions_statistics, statsLoop, setStats, initStatistics, hs]

/-! ## Claims about the fixed key set -/

/-- `setStats` succeeds exactly on the stored keys and preserves the key
list. -/
theorem setStats_of_mem (s : List (String × SeriesStats)) (key : String)
    (v : SeriesStats) (h : key ∈ s.map Prod.fst) :
    ∃ s', setStats s key v = some s' ∧ s'.map Prod.fst = s.map Prod.fst := by
  induction s with
  | nil => simp at h
  | cons p rest ih =>
    obtain ⟨k, w⟩ := p
    by_cases hk : k = key
    · exact ⟨(k, v) :: rest, by simp [setStats, hk], by simp⟩
    · rw [List.map_cons] at h
      have hmem : key ∈ rest.map Prod.fst := by
        rcases List.mem_cons.mp h with h' | h'
        · exact absurd h'.symm hk
        · exact h'
      obtain ⟨r, hr, hkeys⟩ := ih hmem
      exact ⟨(k, w) :: r, by simp [setStats, hk, hr], by simp [hkeys]⟩

/-- `setStats` fails (raises `KeyError`) on a key that is not stored. -/
theorem setStats_of_not_mem (s : List (String × SeriesStats)) (key : String)
    (v : SeriesStats) (h : key ∉ s.map Prod.fst) :
    setStats s key v = none := by
  induction s with
  | nil => rfl
  | cons p rest ih =>
    obtain ⟨k, w⟩ := p
    have hk : k ≠ key := fun hk => h (by simp [hk])
    have hmem : key ∉ rest.map Prod.fst := fun hm => h (by simp [hm])
    simp [setStats, hk, ih hmem]

/-- The statistics loop raises as soon as it reaches a key outside the
stored key set. -/
theorem statsLoop_error (Δ : ℚ) (ints : List (String × List Bool)) :
    ∀ s : List (String × SeriesStats),
      (∃ p ∈ ints, p.1 ∉ s.map Prod.fst) →
      ∃ e, statsLoop Δ ints s = .error e := by
  induction ints with
  | nil => intro s h; simp at h
  | cons q rest ih =>
    intro s h
    obtain ⟨k, lb⟩ := q
    by_cases hk : k ∈ s.map Prod.fst
    · obtain ⟨s', hs', hkeys⟩ := setStats_of_mem s k (seriesStats Δ lb) hk
      obtain ⟨p, hp, hbad⟩ := h
      have hp' : p ∈ rest := by
        rcases List.mem_cons.mp hp with hp | hp
        · subst hp; exact absurd hk hbad
        · exact hp
      obtain ⟨e, he⟩ := ih s' ⟨p, hp', by rw [hkeys]; exact hbad⟩
      exact ⟨e, by simp [statsLoop, hs', he]⟩
    · exact ⟨k, by simp [statsLoop, setStats_of_not_mem s k _ hk]⟩

/-- C10: an input mapping containing any key other than the three fixed
pair-keys makes `interactions_statistics` fail with a key-lookup error
instead of returning a statistics record. -/
theorem interactions_statistics_bad_key (fps : ℚ)
    (ints : List (String × List Bool))
    (h : ∃ p ∈ ints, p.1 ∉ (["td_ct", "td_pm", "ct_pm"] : List String)) :
    ∃ e, interactions_statistics fps ints = .error e := by
  have hkeys : initStatistics.map Prod.fst = ["td_ct", "td_pm", "ct_pm"] := rfl
  exact statsLoop_error (1 / fps) ints initStatistics (by rw [hkeys]; exact h)

/-- Witness for C10: an input with the unexpected key `"other"`. -/
theorem interactions_statistics_bad_key_witness :
    (∃ p ∈ [("other", [true])], Prod.fst p ∉ (["td_ct", "td_pm", "ct_pm"] : List String)) ∧
      ∃ e, interactions_statistics 1 [("other", [true])] = .error e :=
  ⟨⟨("other", [true]), by simp, by simp⟩,
   interactions_statistics_bad_key 1 [("other", [true])]
     ⟨("other", [true]), by simp, by simp⟩⟩

/-! ## Claims about the detection collector -/

/-- The collector loop adds exactly one box per class per processed frame. -/
theorem bboxesLoop_lengths (read : ℕ → Option Frame) (model : Frame → Fin 6 → BBox) :
    ∀ (is : List ℕ) (bbs t : DetTable),
      bboxesLoop read model is bbs = .ok t →
      t.td.length = bbs.td.length + is.length ∧
      t.ct.length = bbs.ct.length + is.length ∧
      t.pm.length = bbs.pm.length + is.length ∧
      t.td_ct_interaction.length = bbs.td_ct_interaction.length + is.length ∧
      t.td_pm_interaction.length = bbs.td_pm_interaction.length + is.length ∧
      t.ct_pm_interaction.length = bbs.ct_pm_interaction.length + is.length := by
  intro is
  induction is with
  | nil =>
    intro bbs t h
    rw [bboxesLoop] at h
    cases h
    simp
  | cons i rest ih =>
    intro bbs t h
    rw [bboxesLoop] at h
    cases hr : read i with
    | none => rw [hr] at h; cases h
    | some f =>
      rw [hr] at h
      obtain ⟨h1, h2, h3, h4, h5, h6⟩ := ih (appendDetections bbs (model f)) t h
      simp only [appendDetections, List.length_append, List.length_cons,
        List.length_nil] at h1 h2 h3 h4 h5 h6
      refine ⟨?_, ?_, ?_, ?_, ?_, ?_⟩ <;> simp only [List.length_cons] <;> omega

/-- C5: every successful collection over a declared total of `N` frames
produces a detection table whose six class sequences all have length exactly
`N`. -/
theorem bboxes_lengths (N : ℕ) (read : ℕ → Option Frame)
    (model : Frame → Fin 6 → BBox) (t : DetTable)
    (h : bboxes N read model = .ok t) :
    t.td.length = N ∧ t.ct.length = N ∧ t.pm.length = N ∧
      t.td_ct_interaction.length = N ∧ t.td_pm_interaction.length = N ∧
      t.ct_pm_interaction.length = N := by
  have := bboxesLoop_lengths read model (List.range N) ⟨[], [], [], [], [], []⟩ t h
  simpa using this

/-- Witness for C5: a one-frame run with the trivial model. -/
theorem bboxes_lengths_witness :
    bboxes 1 read0 model0 = .ok table0 ∧
      (table0.td.length = 1 ∧ table0.ct.length = 1 ∧ table0.pm.length = 1 ∧
        table0.td_ct_interaction.length = 1 ∧ table0.td_pm_interaction.length = 1 ∧
        table0.ct_pm_interaction.length = 1) :=
  ⟨rfl, bboxes_lengths 1 read0 model0 table0 rfl⟩

/-- The collector loop raises the unchecked-read error as soon as the source
has no frame for an index it processes. -/
theorem bboxesLoop_error (read : ℕ → Option Frame) (model : Frame → Fin 6 → BBox) :
    ∀ (is : List ℕ) (bbs : DetTable), (∃ i ∈ is, read i = none) →
      bboxesLoop read model is bbs = .error noneSubscriptError := by
  intro is
  induction is with
  | nil => intro bbs h; simp at h
  | cons j rest ih =>
    intro bbs h
    rw [bboxesLoop]
    cases hr : read j with
    | none => rfl
    | some f =>
      obtain ⟨i, hi, hnone⟩ := h
      rcases List.mem_cons.mp hi with hi | hi
      · subst hi; rw [hr] at hnone; cases hnone
      · exact ih _ ⟨i, hi, hnone⟩

/-- C7 (amended): if the video source is exhausted before the declared frame
count (no frame at some index below `N`), the whole collection fails with the
uncaught `TypeError` from subscripting `None` — no partial detection table is
returned — but the error value does not carry the failing frame index. -/
theorem bboxes_fails_on_exhaustion (N : ℕ) (read : ℕ → Option Frame)
    (model : Frame → Fin 6 → BBox) (h : ∃ i, i < N ∧ read i = none) :
    bboxes N read model = .error noneSubscriptError := by
  obtain ⟨i, hiN, hnone⟩ := h
  exact bboxesLoop_error read model (List.range N) _ ⟨i, List.mem_range.mpr hiN, hnone⟩

/-- Witness for the amended C7: a declared one-frame video whose source is
already exhausted. -/
theorem bboxes_fails_on_exhaustion_witness :
    (∃ i, i < 1 ∧ readNone i = none) ∧
      bboxes 1 readNone model0 = .error noneSubscriptError :=
  ⟨⟨0, Nat.zero_lt_one, rfl⟩,
   bboxes_fails_on_exhaustion 1 readNone model0 ⟨0, Nat.zero_lt_one, rfl⟩⟩

/-- Counterexample to C7 as stated: a run failing at frame index 0 and a run
failing at frame index 1 abort with the *identical* error value, so the
reported error cannot identify which frame index failed. -/
theorem bboxes_error_not_indexed :
    bboxes 1 readNone model0 = .error noneSubscriptError ∧
      bboxes 2 readOneFrame model0 = .error noneSubscriptError :=
  ⟨rfl, rfl⟩

/-! ## Claims about the interaction extractor and the closeness scorer -/

/-- C6: for every frame index below the frame count and each pair-key, the
interaction table entry is the truthiness of the corresponding
interaction-class box — true iff the box is present — and truthiness never
consults the confidence value. -/
theorem interactions_presence (N i : ℕ) (bbs : DetTable) (hi : i < N) :
    (∃ s1 s2 s3, interactions N bbs = [("td_ct", s1), ("td_pm", s2), ("ct_pm", s3)] ∧
      s1[i]? = some (pyTruthy (bbs.td_ct_interaction.getD i .absent)) ∧
      s2[i]? = some (pyTruthy (bbs.td_pm_interaction.getD i .absent)) ∧
      s3[i]? = some (pyTruthy (bbs.ct_pm_interaction.getD i .absent))) ∧
    (∀ b, pyTruthy b = true ↔ b ≠ BBox.absent) ∧
    (∀ x y X Y c c', pyTruthy (BBox.present x y X Y c) = pyTruthy (BBox.present x y X Y c')) := by
  refine ⟨⟨_, _, _, rfl, ?_, ?_, ?_⟩, ?_, ?_⟩
  · rw [List.getElem?_map, List.getElem?_range hi]; rfl
  · rw [List.getElem?_map, List.getElem?_range hi]; rfl
  · rw [List.getElem?_map, List.getElem?_range hi]; rfl
  · intro b; cases b <;> simp [pyTruthy]
  · intro x y X Y c c'; rfl

/-- Witness for C6 at frame 0 of a one-frame table. -/
theorem interactions_presence_witness :
    (0 < 1) ∧
      ((∃ s1 s2 s3, interactions 1 tableC6 = [("td_ct", s1), ("td_pm", s2), ("ct_pm", s3)] ∧
        s1[0]? = some (pyTruthy (tableC6.td_ct_interaction.getD 0 .absent)) ∧
        s2[0]? = some (pyTruthy (tableC6.td_pm_interaction.getD 0 .absent)) ∧
        s3[0]? = some (pyTruthy (tableC6.ct_pm_interaction.getD 0 .absent))) ∧
      (∀ b, pyTruthy b = true ↔ b ≠ BBox.absent) ∧
      (∀ x y X Y c c', pyTruthy (BBox.present x y X Y c) = pyTruthy (BBox.present x y X Y c'))) :=
  ⟨Nat.zero_lt_one, interactions_presence 1 0 tableC6 Nat.zero_lt_one⟩

/-- C8: on that table the closeness scores are `td_ct = 25/min(100,100) =
0.25`, `td_pm = 0`, `ct_pm = 0`. -/
theorem closeness_example :
    closeness 1 tableC8 = [("td_ct", [1/4]), ("td_pm", [0]), ("ct_pm", [0])] := by
  have h1 : niou (BBox.present 0 0 10 10 1) (BBox.present 5 5 15 15 1) = 1/4 := by
    norm_num [niou, BBox.area, intersectionArea, min_def, max_def]
    exact ⟨fun h => BBox.noConfusion h, fun h => BBox.noConfusion h⟩
  have h2 : niou (BBox.present 0 0 10 10 1) BBox.absent = 0 := by
    norm_num [niou]
  have h3 : niou (BBox.present 5 5 15 15 1) BBox.absent = 0 := by
    norm_num [niou]
  simp only [closeness, tableC8]
  rw [show (List.range 1) = [0] from rfl]
  simp [h1, h2, h3]

end VideoParser
